import Mathlib

/-!
Verification of the bisection core of the rez_developer_packages repository.

The development shallowly embeds the rez_bisect core modules:

* rez_bisect/core/rez_helper.py : to_contexts, to_request_list, to_script_runner,
  _is_relative_context
* rez_bisect/core/runner.py : _reduce_to_two_contexts, bisect, _BisectSummary

External collaborators (the rez resolver, the filesystem, process execution) are
modelled as explicit function parameters, so every definition is executable.
-/

namespace RezBisect

/-! ## CheckRunner: rez_helper.to_script_runner

The source closure runs the executable at a fixed path inside a Rez context via
context.execute_command, waits with process.communicate, and inspects
process.returncode.  We abstract the fixed executable path together with process
execution into a single function, execute_command_returncode, that yields the
exit status of that executable inside a given context. -/

/-- Embedding of the inner closure _run_in_context of rez_helper.to_script_runner.
The source returns the Python expression process.returncode == 0. -/
def _run_in_context {α : Type} (execute_command_returncode : α → Int) (context : α) : Bool :=
  execute_command_returncode context == 0

/-- Embedding of rez_helper.to_script_runner: builds the predicate that the
bisection uses as has_issue. -/
def to_script_runner {α : Type} (execute_command_returncode : α → Int) : α → Bool :=
  fun context => _run_in_context execute_command_returncode context

/-! ## The bisecter module

runner.py imports bisect_right from rez_bisect.core.bisecter.  That module is
not part of the sources available here, so it is modelled from the spec. -/

/-- Modelled from the spec: the module rez_bisect.core.bisecter is absent from
the available sources (only its caller runner.py is present).  The spec, section
4.4, describes bisect_right as a monotonic binary search with bisect-right
semantics that finds the smallest index whose verdict is True, evaluates the
predicate at most ceil(log2 n) times, caches each verdict by index so no index
is checked twice, and treats the two endpoints as pre-validated good and bad.
bsearch is the classic first-true binary search on the half-open index interval
from lo to hi; it also returns the list of indices at which the predicate was
evaluated, in evaluation order, as a ghost trace used to state the caching and
call-count properties.  Recursion is structural on an explicit fuel argument so
that the search is kernel-computable; every use supplies fuel at least hi - lo,
which the width lemma below shows is enough for the fuel never to run out. -/
def bsearch (pred : Nat → Bool) : Nat → Nat → Nat → Nat × List Nat
  | 0, lo, _ => (lo, [])
  | fuel + 1, lo, hi =>
    if lo < hi then
      if pred ((lo + hi) / 2) then
        ((bsearch pred fuel lo ((lo + hi) / 2)).1,
          ((lo + hi) / 2) :: (bsearch pred fuel lo ((lo + hi) / 2)).2)
      else
        ((bsearch pred fuel ((lo + hi) / 2 + 1) hi).1,
          ((lo + hi) / 2) :: (bsearch pred fuel ((lo + hi) / 2 + 1) hi).2)
    else (lo, [])

/-- Modelled from the spec: bisecter.bisect_right applied to has_issue and the
context list.  The endpoints, index 0 assumed good and index n - 1 assumed bad,
are pre-validated by the caller, so the search runs over the interior indices 1
to n - 2; this is what lets the evaluation count stay within ceil(log2 n).  The
first component is the found upper bound, the second the ghost trace of indices
at which has_issue was evaluated. -/
def bisect_right {α : Type} [Inhabited α] (has_issue : α → Bool) (contexts : List α) :
    Nat × List Nat :=
  bsearch (fun index => has_issue (contexts.getD index default)) contexts.length 1
    (contexts.length - 1)

/-! ## runner.py -/

/-- Embedding of runner._BisectSummary, a named tuple with fields last_good,
first_bad and diff.  The diff type is abstract here. -/
structure _BisectSummary (δ : Type) where
  last_good : Nat
  first_bad : Nat
  diff : δ

/-- The two NotImplementedError raises in runner.bisect for context lists of
length 0 or 1. -/
inductive RunnerError where
  | notImplemented : RunnerError
deriving DecidableEq, Repr

/-- Embedding of runner._reduce_to_two_contexts: calls bisect_right and returns
the pair of the upper bound minus one and the upper bound, together with the
ghost evaluation trace of the search. -/
def _reduce_to_two_contexts {α : Type} [Inhabited α] (has_issue : α → Bool)
    (contexts : List α) : (Nat × Nat) × List Nat :=
  (((bisect_right has_issue contexts).1 - 1, (bisect_right has_issue contexts).1),
    (bisect_right has_issue contexts).2)

/-- Embedding of runner.bisect.  The rez method get_resolve_diff on contexts is
external to the sources, so it is abstracted as the parameter diffFn.  Python
raises NotImplementedError for 0 or 1 contexts; this is embedded as an Except
error.  The second component of a successful result is the ghost trace of
indices at which has_issue was evaluated (empty for exactly two contexts, where
the source never calls has_issue). -/
def bisect {α δ : Type} [Inhabited α] (has_issue : α → Bool) (diffFn : α → α → δ)
    (contexts : List α) : Except RunnerError (_BisectSummary δ × List Nat) :=
  if contexts.length > 2 then
    Except.ok
      (⟨(_reduce_to_two_contexts has_issue contexts).1.1,
        (_reduce_to_two_contexts has_issue contexts).1.2,
        diffFn (contexts.getD (_reduce_to_two_contexts has_issue contexts).1.1 default)
          (contexts.getD (_reduce_to_two_contexts has_issue contexts).1.2 default)⟩,
        (_reduce_to_two_contexts has_issue contexts).2)
  else if contexts.length == 2 then
    Except.ok (⟨0, 1, diffFn (contexts.getD 0 default) (contexts.getD 1 default)⟩, [])
  else
    Except.error RunnerError.notImplemented

/-! ## ContextProvider: rez_helper.to_contexts

The source iterates over request strings.  For each request it first records
absolute paths that are not files into the set missing; once missing is
non-empty every later request is skipped.  Requests ending in .rxt are
normalized against root and loaded; other requests are resolved.  A context
whose success flag is false adds the (possibly normalized) request to the set
failed.  After the loop, a non-empty missing set raises BadRequest naming the
missing files; otherwise a non-empty failed set raises BadRequest naming the
unresolvable requests; otherwise the context list is returned. -/

/-- Embedding of rez_helper._REQUEST_SEPARATOR. -/
def _REQUEST_SEPARATOR : String := " "

/-- Embedding of rez_helper._is_relative_context: the Python expression
text.endswith applied to the .rxt suffix, embedded as a suffix test on the
character sequences so that it is kernel-computable. -/
def _is_relative_context (text : String) : Bool :=
  (".rxt").data.isSuffixOf text.data

/-- Embedding of rez_helper.to_request_list: splits a raw request on the
request separator. -/
def to_request_list (request : String) : List String :=
  request.splitOn _REQUEST_SEPARATOR

/-- Modelled from the spec: the external collaborators of to_contexts.  The
fields embed, in order: os.path.isabs, os.path.isfile, path_helper.normalize
with the fixed root argument absorbed, rez ResolvedContext.load,
rez ResolvedContext construction from a request list with the fixed
packages_path argument absorbed, and the rez context success attribute.  Per
spec sections 3 and 6 a resolved snapshot carries a success flag and the
serialized snapshot format is a black box, so loading and resolving are total
functions into the context type and failures surface through the success
flag, exactly as the source consumes them. -/
structure Env (α : Type) where
  isAbs : String → Bool
  isFile : String → Bool
  normalize : String → String
  load : String → α
  resolve : List String → α
  success : α → Bool

/-- Python set.add on the insertion-ordered list model of a set: appends the
element unless already present.  Only membership of the final set is used by
the theorems, so the list model is faithful. -/
def addSet (s : List String) (x : String) : List String :=
  if x ∈ s then s else s ++ [x]

/-- The loop state of to_contexts: the failed set, the missing set, the
accumulated context list, and a ghost trace of the requests that were actually
processed, that is, reached the load-or-resolve step. -/
structure LoopState (α : Type) where
  failed : List String
  missing : List String
  contexts : List α
  processed : List String

/-- A request that the source records into the missing set: an absolute path
that is not a file on disk. -/
def offendsMissing {α : Type} (env : Env α) (request : String) : Bool :=
  env.isAbs request && ! env.isFile request

/-- One iteration of the request loop of rez_helper.to_contexts: record the
request into missing when it is an absolute path that is not a file; skip the
rest of the iteration when missing is non-empty; otherwise load a context file
after normalizing, or resolve a raw request, recording a failure into failed
under the possibly normalized name, and a success into the context list.  The
ghost processed trace records the requests that reached the load-or-resolve
step. -/
def to_contexts_step {α : Type} (env : Env α) (state : LoopState α) (request : String) :
    LoopState α :=
  let state1 :=
    if offendsMissing env request then
      { state with missing := addSet state.missing request }
    else state
  if state1.missing.isEmpty then
    if _is_relative_context request then
      let r := env.normalize request
      let context := env.load r
      let state2 := { state1 with processed := state1.processed ++ [request] }
      if env.success context then
        { state2 with contexts := state2.contexts ++ [context] }
      else
        { state2 with failed := addSet state2.failed r }
    else
      let context := env.resolve (to_request_list request)
      let state2 := { state1 with processed := state1.processed ++ [request] }
      if env.success context then
        { state2 with contexts := state2.contexts ++ [context] }
      else
        { state2 with failed := addSet state2.failed request }
  else
    state1

/-- The request loop of rez_helper.to_contexts. -/
def to_contexts_loop {α : Type} (env : Env α) : List String → LoopState α → LoopState α
  | [], state => state
  | request :: rest, state => to_contexts_loop env rest (to_contexts_step env state request)

/-- Embedding of rez_helper.BadRequest as raised by to_contexts: one message
names the missing context files, the other the unresolvable requests.  The
carried list stands for the set interpolated into the message text. -/
inductive BadRequest where
  | missingFiles (names : List String) : BadRequest
  | unresolvable (names : List String) : BadRequest
deriving DecidableEq, Repr

/-- The request names interpolated into a BadRequest message. -/
def BadRequest.names : BadRequest → List String
  | BadRequest.missingFiles m => m
  | BadRequest.unresolvable f => f

/-- Embedding of rez_helper.to_contexts. -/
def to_contexts {α : Type} (env : Env α) (requests : List String) :
    Except BadRequest (List α) :=
  if ! (to_contexts_loop env requests ⟨[], [], [], []⟩).missing.isEmpty then
    Except.error (BadRequest.missingFiles (to_contexts_loop env requests ⟨[], [], [], []⟩).missing)
  else if ! (to_contexts_loop env requests ⟨[], [], [], []⟩).failed.isEmpty then
    Except.error (BadRequest.unresolvable (to_contexts_loop env requests ⟨[], [], [], []⟩).failed)
  else
    Except.ok (to_contexts_loop env requests ⟨[], [], [], []⟩).contexts

/-- The ghost trace of requests that to_contexts actually loaded or resolved. -/
def processedOf {α : Type} (env : Env α) (requests : List String) : List String :=
  (to_contexts_loop env requests ⟨[], [], [], []⟩).processed

/-- The name under which a processed request is recorded into the failed set:
the normalized path for a context file, the request itself otherwise. -/
def failedName {α : Type} (env : Env α) (request : String) : String :=
  if _is_relative_context request then env.normalize request else request

/-- A request whose load or resolve yields a context with a false success
flag, so the source records it into the failed set when processed. -/
def offendsResolve {α : Type} (env : Env α) (request : String) : Bool :=
  if _is_relative_context request then
    ! env.success (env.load (env.normalize request))
  else
    ! env.success (env.resolve (to_request_list request))

/-! ## DiffEngine

runner.bisect computes the diff through the rez method get_resolve_diff on
contexts, which belongs to the external rez library and is not among the
available sources.  It is modelled from the spec. -/

/-- A package version: the list of numeric components, compared
component-wise. -/
abbrev Version := List Nat

/-- Modelled from the spec: the component-wise version ordering of spec
section 4.3, under which 1.2.0 is less than 1.2.1 which is less than 1.3.0.
A proper prefix is less than its extension. -/
def versionLt : Version → Version → Bool
  | [], [] => false
  | [], _ :: _ => true
  | _ :: _, [] => false
  | a :: as, b :: bs => if a < b then true else if b < a then false else versionLt as bs

/-- A resolved snapshot for diffing purposes: the finite mapping from package
name to resolved exact version, represented as an association list. -/
abbrev Snapshot := List (String × Version)

/-- The resolved version of a named package in a snapshot, if present. -/
def lookupVersion (snapshot : Snapshot) (name : String) : Option Version :=
  (snapshot.find? (fun p => p.1 == name)).map (fun p => p.2)

/-- Embedding of the diff result: one list of resolved package entries per
category. -/
structure DiffResult where
  added_packages : List (String × Version)
  removed_packages : List (String × Version)
  newer_packages : List (String × Version)
  older_packages : List (String × Version)
deriving DecidableEq, Repr

/-- Modelled from the spec: rez get_resolve_diff is external to the available
sources.  Spec section 4.3: a name present in after but absent from before is
added; present in before but absent from after is removed; present in both
with different versions is newer when the after version is strictly greater by
the component-wise ordering, else older; unchanged names are omitted.  The
entry recorded for added, newer and older is the after entry; for removed the
before entry. -/
def get_resolve_diff (before after : Snapshot) : DiffResult :=
  { added_packages := after.filter (fun p => (lookupVersion before p.1).isNone)
    removed_packages := before.filter (fun p => (lookupVersion after p.1).isNone)
    newer_packages := after.filter (fun p =>
      match lookupVersion before p.1 with
      | some v => v != p.2 && versionLt v p.2
      | none => false)
    older_packages := after.filter (fun p =>
      match lookupVersion before p.1 with
      | some v => v != p.2 && ! versionLt v p.2
      | none => false) }

/-! ## Derived definitions used by the statements and proofs -/

/-- Folding addSet over a list, the final contents of a Python set built by
repeated set.add calls. -/
def addAll (s : List String) (l : List String) : List String :=
  l.foldl addSet s

/-- The number of binary digits of a natural number; zero for zero.  This
bounds the number of iterations of a binary search over an interval of the
given width. -/
def bitlen (s : Nat) : Nat :=
  if s = 0 then 0 else Nat.log 2 s + 1

/-- A concrete environment over Bool contexts in which every resolve fails,
every load succeeds, and exactly the path /m.rxt is an absolute path missing
on disk.  The success flag of a context is the context itself. -/
def envResolveFails : Env Bool :=
  { isAbs := fun s => s == ("/m.rxt")
    isFile := fun _ => false
    normalize := fun s => s
    load := fun _ => true
    resolve := fun _ => false
    success := fun c => c }

/-- A concrete environment over Bool contexts in which every resolve and every
load succeeds and exactly the path /m.rxt is an absolute path missing on
disk. -/
def envAllResolve : Env Bool :=
  { isAbs := fun s => s == ("/m.rxt")
    isFile := fun _ => false
    normalize := fun s => s
    load := fun _ => true
    resolve := fun _ => true
    success := fun c => c }

/-- A concrete environment over Bool contexts in which nothing is an absolute
path and every load yields an unsuccessful context. -/
def envLoadFails : Env Bool :=
  { isAbs := fun _ => false
    isFile := fun _ => false
    normalize := fun s => s
    load := fun _ => false
    resolve := fun _ => true
    success := fun c => c }

/-! ## Helper lemmas: insertion-ordered sets -/

theorem mem_addSet {s : List String} {x y : String} :
    y ∈ addSet s x ↔ y ∈ s ∨ y = x := by
  unfold addSet
  split
  · constructor
    · exact fun h => Or.inl h
    · rintro (h | rfl)
      · exact h
      · assumption
  · simp [List.mem_append]

theorem addSet_ne_nil {s : List String} {x : String} : addSet s x ≠ [] := by
  unfold addSet
  split
  · intro h
    subst h
    simp_all
  · simp

theorem mem_addAll {l : List String} : ∀ {s : List String} {y : String},
    y ∈ addAll s l ↔ y ∈ s ∨ y ∈ l := by
  induction l with
  | nil => simp [addAll]
  | cons a t ih =>
    intro s y
    show y ∈ addAll (addSet s a) t ↔ _
    rw [ih, mem_addSet]
    simp [or_assoc, List.mem_cons]

theorem addAll_ne_nil {s : List String} {l : List String} (h : s ≠ []) :
    addAll s l ≠ [] := by
  cases s with
  | nil => exact absurd rfl h
  | cons a t =>
    intro hc
    have : a ∈ addAll (a :: t) l := mem_addAll.mpr (Or.inl (List.mem_cons_self a t))
    rw [hc] at this
    exact List.not_mem_nil a this

/-! ## Helper lemmas: the to_contexts step -/

theorem step_missing {α : Type} (env : Env α) (s : LoopState α) (r : String) :
    (to_contexts_step env s r).missing =
      if offendsMissing env r then addSet s.missing r else s.missing := by
  unfold to_contexts_step
  by_cases hm : offendsMissing env r
  · have hne : (addSet s.missing r).isEmpty = false :=
      List.isEmpty_eq_false.mpr addSet_ne_nil
    simp [hm, hne]
  · by_cases he : s.missing.isEmpty
    · by_cases hrel : _is_relative_context r
      · by_cases hs : env.success (env.load (env.normalize r)) <;> simp [hm, he, hrel, hs]
      · by_cases hs : env.success (env.resolve (to_request_list r)) <;> simp [hm, he, hrel, hs]
    · have hne : s.missing.isEmpty = false := by simpa using he
      simp [hm, hne]

theorem step_skip_of_missing {α : Type} (env : Env α) (s : LoopState α) (r : String)
    (h : s.missing ≠ []) :
    (to_contexts_step env s r).failed = s.failed ∧
    (to_contexts_step env s r).contexts = s.contexts ∧
    (to_contexts_step env s r).processed = s.processed := by
  unfold to_contexts_step
  by_cases hm : offendsMissing env r
  · have hne : (addSet s.missing r).isEmpty = false :=
      List.isEmpty_eq_false.mpr addSet_ne_nil
    simp [hm, hne]
  · have hne : s.missing.isEmpty = false := List.isEmpty_eq_false.mpr h
    simp [hm, hne]

theorem step_skip_of_offends {α : Type} (env : Env α) (s : LoopState α) (r : String)
    (h : offendsMissing env r = true) :
    to_contexts_step env s r = { s with missing := addSet s.missing r } := by
  unfold to_contexts_step
  have hne : (addSet s.missing r).isEmpty = false :=
    List.isEmpty_eq_false.mpr addSet_ne_nil
  simp [h, hne]

theorem step_process_fail {α : Type} (env : Env α) (s : LoopState α) (r : String)
    (hmiss : s.missing = []) (hm : offendsMissing env r = false)
    (hres : offendsResolve env r = true) :
    to_contexts_step env s r =
      { s with failed := addSet s.failed (failedName env r),
               processed := s.processed ++ [r] } := by
  unfold to_contexts_step
  have he : s.missing.isEmpty = true := by simp [hmiss]
  by_cases hrel : _is_relative_context r
  · have hs : env.success (env.load (env.normalize r)) = false := by
      unfold offendsResolve at hres
      simp [hrel] at hres
      exact hres
    simp [hm, he, hrel, hs, failedName]
  · have hs : env.success (env.resolve (to_request_list r)) = false := by
      unfold offendsResolve at hres
      simp [hrel] at hres
      exact hres
    simp [hm, he, hrel, hs, failedName]

theorem step_process_ok {α : Type} (env : Env α) (s : LoopState α) (r : String)
    (hmiss : s.missing = []) (hm : offendsMissing env r = false)
    (hres : offendsResolve env r = false) :
    (to_contexts_step env s r).failed = s.failed ∧
    (to_contexts_step env s r).missing = [] ∧
    (to_contexts_step env s r).processed = s.processed ++ [r] := by
  unfold to_contexts_step
  have he : s.missing.isEmpty = true := by simp [hmiss]
  by_cases hrel : _is_relative_context r
  · have hs : env.success (env.load (env.normalize r)) = true := by
      unfold offendsResolve at hres
      simp [hrel] at hres
      exact hres
    simp [hm, he, hrel, hs, hmiss]
  · have hs : env.success (env.resolve (to_request_list r)) = true := by
      unfold offendsResolve at hres
      simp [hrel] at hres
      exact hres
    simp [hm, he, hrel, hs, hmiss]

theorem step_processed_sub {α : Type} (env : Env α) (s : LoopState α) (r : String) :
    ∀ y, y ∈ (to_contexts_step env s r).processed → y ∈ s.processed ∨ y = r := by
  unfold to_contexts_step
  by_cases hm : offendsMissing env r
  · have hne : (addSet s.missing r).isEmpty = false :=
      List.isEmpty_eq_false.mpr addSet_ne_nil
    simp [hm, hne]
    exact fun y hy => Or.inl hy
  · by_cases he : s.missing.isEmpty
    · by_cases hrel : _is_relative_context r
      · by_cases hs : env.success (env.load (env.normalize r))
        · simp [hm, he, hrel, hs, List.mem_append]
        · simp [hm, he, hrel, hs, List.mem_append]
      · by_cases hs : env.success (env.resolve (to_request_list r))
        · simp [hm, he, hrel, hs, List.mem_append]
        · simp [hm, he, hrel, hs, List.mem_append]
    · have hne : s.missing.isEmpty = false := by simpa using he
      simp [hm, hne]
      exact fun y hy => Or.inl hy

theorem step_failed_mono {α : Type} (env : Env α) (s : LoopState α) (r : String) :
    ∀ x, x ∈ s.failed → x ∈ (to_contexts_step env s r).failed := by
  unfold to_contexts_step
  by_cases hm : offendsMissing env r
  · have hne : (addSet s.missing r).isEmpty = false :=
      List.isEmpty_eq_false.mpr addSet_ne_nil
    simp [hm, hne]
  · by_cases he : s.missing.isEmpty
    · by_cases hrel : _is_relative_context r
      · by_cases hs : env.success (env.load (env.normalize r))
        · simp [hm, he, hrel, hs]
        · intro x hx
          simp [hm, he, hrel, hs, mem_addSet]
          exact Or.inl hx
      · by_cases hs : env.success (env.resolve (to_request_list r))
        · simp [hm, he, hrel, hs]
        · intro x hx
          simp [hm, he, hrel, hs, mem_addSet]
          exact Or.inl hx
    · have hne : s.missing.isEmpty = false := by simpa using he
      simp [hm, hne]

/-! ## Helper lemmas: the to_contexts loop -/

theorem loop_append {α : Type} (env : Env α) (xs ys : List String) :
    ∀ s, to_contexts_loop env (xs ++ ys) s = to_contexts_loop env ys (to_contexts_loop env xs s) := by
  induction xs with
  | nil => intro s; rfl
  | cons a t ih =>
    intro s
    show to_contexts_loop env (t ++ ys) (to_contexts_step env s a) = _
    exact ih (to_contexts_step env s a)

theorem loop_missing {α : Type} (env : Env α) (reqs : List String) :
    ∀ s, (to_contexts_loop env reqs s).missing =
      addAll s.missing (reqs.filter (fun r => offendsMissing env r)) := by
  induction reqs with
  | nil => intro s; rfl
  | cons a t ih =>
    intro s
    show (to_contexts_loop env t (to_contexts_step env s a)).missing = _
    rw [ih (to_contexts_step env s a), step_missing]
    by_cases hm : offendsMissing env a
    · simp only [hm, if_true, List.filter_cons_of_pos]
      rfl
    · simp only [hm]
      rw [List.filter_cons_of_neg (by simpa using hm)]
      simp

theorem loop_skip {α : Type} (env : Env α) (reqs : List String) :
    ∀ s, s.missing ≠ [] →
      (to_contexts_loop env reqs s).failed = s.failed ∧
      (to_contexts_loop env reqs s).contexts = s.contexts ∧
      (to_contexts_loop env reqs s).processed = s.processed := by
  induction reqs with
  | nil => intro s _; exact ⟨rfl, rfl, rfl⟩
  | cons a t ih =>
    intro s h
    have hstep := step_skip_of_missing env s a h
    have hmiss : (to_contexts_step env s a).missing ≠ [] := by
      rw [step_missing]
      by_cases hm : offendsMissing env a
      · simp [hm, addSet_ne_nil]
      · simp [hm, h]
    have := ih (to_contexts_step env s a) hmiss
    have hiter : to_contexts_loop env (a :: t) s = to_contexts_loop env t (to_contexts_step env s a) := rfl
    rw [hiter]
    exact ⟨by rw [this.1, hstep.1], by rw [this.2.1, hstep.2.1], by rw [this.2.2, hstep.2.2]⟩

theorem loop_processed_sub {α : Type} (env : Env α) (reqs : List String) :
    ∀ s y, y ∈ (to_contexts_loop env reqs s).processed → y ∈ s.processed ∨ y ∈ reqs := by
  induction reqs with
  | nil => intro s y h; exact Or.inl h
  | cons a t ih =>
    intro s y h
    have := ih (to_contexts_step env s a) y h
    rcases this with h1 | h2
    · rcases step_processed_sub env s a y h1 with h3 | h4
      · exact Or.inl h3
      · exact Or.inr (by simp [h4])
    · exact Or.inr (List.mem_cons_of_mem a h2)

theorem loop_failed_mono {α : Type} (env : Env α) (reqs : List String) :
    ∀ s x, x ∈ s.failed → x ∈ (to_contexts_loop env reqs s).failed := by
  induction reqs with
  | nil => intro s x h; exact h
  | cons a t ih =>
    intro s x h
    exact ih (to_contexts_step env s a) x (step_failed_mono env s a x h)

theorem loop_failed_mem {α : Type} (env : Env α) (reqs : List String) :
    ∀ s, s.missing = [] → (∀ r ∈ reqs, offendsMissing env r = false) →
      ∀ r ∈ reqs, offendsResolve env r = true →
        failedName env r ∈ (to_contexts_loop env reqs s).failed := by
  induction reqs with
  | nil => intro s _ _ r hr; exact absurd hr (List.not_mem_nil r)
  | cons a t ih =>
    intro s hmiss hnom r hr hres
    have hma : offendsMissing env a = false := hnom a (List.mem_cons_self a t)
    rcases List.mem_cons.mp hr with rfl | hrt
    · have hstep := step_process_fail env s r hmiss hma hres
      show failedName env r ∈ (to_contexts_loop env t (to_contexts_step env s r)).failed
      apply loop_failed_mono
      rw [hstep]
      exact mem_addSet.mpr (Or.inr rfl)
    · by_cases hres_a : offendsResolve env a
      · have hstep := step_process_fail env s a hmiss hma hres_a
        show failedName env r ∈ (to_contexts_loop env t (to_contexts_step env s a)).failed
        refine ih (to_contexts_step env s a) ?_ (fun q hq => hnom q (List.mem_cons_of_mem a hq))
          r hrt hres
        rw [hstep]
        exact hmiss
      · have hstep := step_process_ok env s a hmiss hma (by simpa using hres_a)
        show failedName env r ∈ (to_contexts_loop env t (to_contexts_step env s a)).failed
        exact ih (to_contexts_step env s a) hstep.2.1
          (fun q hq => hnom q (List.mem_cons_of_mem a hq)) r hrt hres

/-! ## Helper lemmas: bitlen and the ceiling logarithm -/

theorem bitlen_mono {m n : Nat} (h : m ≤ n) : bitlen m ≤ bitlen n := by
  unfold bitlen
  by_cases hm : m = 0
  · simp [hm]
  · have hn : n ≠ 0 := by omega
    simp only [hm, hn, if_false]
    exact Nat.succ_le_succ (Nat.log_mono_right h)

theorem bitlen_half_succ {s : Nat} (h : 1 ≤ s) : bitlen (s / 2) + 1 ≤ bitlen s := by
  by_cases h2 : s ≤ 1
  · have hs : s = 1 := by omega
    subst hs
    simp [bitlen, Nat.log_one_right]
  · have hs2 : 2 ≤ s := by omega
    have hhalf : s / 2 ≠ 0 := by omega
    have hlog : Nat.log 2 (s / 2) = Nat.log 2 s - 1 := Nat.log_div_base 2 s
    have hpos : 0 < Nat.log 2 s := Nat.log_pos (by norm_num) hs2
    unfold bitlen
    simp only [hhalf, show s ≠ 0 by omega, if_false]
    omega

theorem bitlen_le_clog {n : Nat} (h : 3 ≤ n) : bitlen (n - 2) ≤ Nat.clog 2 n := by
  have h1 : n - 2 ≠ 0 := by omega
  unfold bitlen
  simp only [h1, if_false]
  have hpow : 2 ^ Nat.log 2 (n - 2) ≤ n - 2 := Nat.pow_log_le_self 2 h1
  have hlt : (2 : Nat) ^ Nat.log 2 (n - 2) < n := by omega
  have := (Nat.pow_lt_iff_lt_clog (by norm_num)).mp hlt
  omega

/-! ## Helper lemmas: the binary search -/

theorem bsearch_bounds (pred : Nat → Bool) :
    ∀ fuel lo hi, hi - lo ≤ fuel → lo ≤ hi →
      lo ≤ (bsearch pred fuel lo hi).1 ∧ (bsearch pred fuel lo hi).1 ≤ hi := by
  intro fuel
  induction fuel with
  | zero =>
    intro lo hi _ hle
    exact ⟨Nat.le_refl lo, hle⟩
  | succ fuel ih =>
    intro lo hi hf hle
    simp only [bsearch]
    by_cases h : lo < hi
    · rw [if_pos h]
      by_cases hp : pred ((lo + hi) / 2) = true
      · rw [if_pos hp]
        have := ih lo ((lo + hi) / 2) (by omega) (by omega)
        exact ⟨this.1, by have := this.2; omega⟩
      · rw [if_neg hp]
        have := ih ((lo + hi) / 2 + 1) hi (by omega) (by omega)
        exact ⟨by have := this.1; omega, this.2⟩
    · rw [if_neg h]
      exact ⟨Nat.le_refl lo, hle⟩

theorem bsearch_correct (pred : Nat → Bool) :
    ∀ fuel lo hi, hi - lo ≤ fuel →
      (∀ i j, lo ≤ i → i ≤ j → j < hi → pred i = true → pred j = true) →
      (∀ j, lo ≤ j → j < (bsearch pred fuel lo hi).1 → pred j = false) ∧
      ((bsearch pred fuel lo hi).1 < hi → pred (bsearch pred fuel lo hi).1 = true) := by
  intro fuel
  induction fuel with
  | zero =>
    intro lo hi hf _
    constructor
    · intro j hj1 hj2
      have : (bsearch pred 0 lo hi).1 = lo := rfl
      omega
    · intro hlt
      have : (bsearch pred 0 lo hi).1 = lo := rfl
      omega
  | succ fuel ih =>
    intro lo hi hf hmono
    simp only [bsearch]
    by_cases h : lo < hi
    · rw [if_pos h]
      by_cases hp : pred ((lo + hi) / 2) = true
      · rw [if_pos hp]
        have hbnd := bsearch_bounds pred fuel lo ((lo + hi) / 2) (by omega) (by omega)
        have := ih lo ((lo + hi) / 2) (by omega)
          (fun i j hi1 hij hjm hpi => hmono i j hi1 hij (by omega) hpi)
        constructor
        · exact this.1
        · intro hlt
          by_cases hr : (bsearch pred fuel lo ((lo + hi) / 2)).1 < (lo + hi) / 2
          · exact this.2 hr
          · have : (bsearch pred fuel lo ((lo + hi) / 2)).1 = (lo + hi) / 2 := by omega
            rw [this]
            exact hp
      · rw [if_neg hp]
        have := ih ((lo + hi) / 2 + 1) hi (by omega)
          (fun i j hi1 hij hjm hpi => hmono i j (by omega) hij hjm hpi)
        constructor
        · intro j hj1 hj2
          by_cases hjm : j ≤ (lo + hi) / 2
          · cases hpj : pred j with
            | true =>
              exact absurd (hmono j ((lo + hi) / 2) hj1 hjm (by omega) hpj)
                (by simpa using hp)
            | false => rfl
          · exact this.1 j (by omega) hj2
        · exact this.2
    · rw [if_neg h]
      constructor
      · intro j hj1 hj2
        have : (bsearch pred (fuel + 1) lo hi).1 = lo := by
          simp only [bsearch]
          rw [if_neg h]
        omega
      · intro hlt
        omega

theorem bsearch_trace_mem (pred : Nat → Bool) :
    ∀ fuel lo hi j, j ∈ (bsearch pred fuel lo hi).2 → lo ≤ j ∧ j < hi := by
  intro fuel
  induction fuel with
  | zero =>
    intro lo hi j hj
    exact absurd hj (List.not_mem_nil j)
  | succ fuel ih =>
    intro lo hi j hj
    simp only [bsearch] at hj
    by_cases h : lo < hi
    · rw [if_pos h] at hj
      by_cases hp : pred ((lo + hi) / 2) = true
      · rw [if_pos hp] at hj
        rcases List.mem_cons.mp hj with rfl | hj2
        · omega
        · have := ih lo ((lo + hi) / 2) j hj2
          omega
      · rw [if_neg hp] at hj
        rcases List.mem_cons.mp hj with rfl | hj2
        · omega
        · have := ih ((lo + hi) / 2 + 1) hi j hj2
          omega
    · rw [if_neg h] at hj
      exact absurd hj (List.not_mem_nil j)

theorem bsearch_trace_nodup (pred : Nat → Bool) :
    ∀ fuel lo hi, (bsearch pred fuel lo hi).2.Nodup := by
  intro fuel
  induction fuel with
  | zero =>
    intro lo hi
    exact List.nodup_nil
  | succ fuel ih =>
    intro lo hi
    simp only [bsearch]
    by_cases h : lo < hi
    · rw [if_pos h]
      by_cases hp : pred ((lo + hi) / 2) = true
      · rw [if_pos hp]
        refine List.nodup_cons.mpr ⟨?_, ih lo ((lo + hi) / 2)⟩
        intro hmem
        have := bsearch_trace_mem pred fuel lo ((lo + hi) / 2) _ hmem
        omega
      · rw [if_neg hp]
        refine List.nodup_cons.mpr ⟨?_, ih ((lo + hi) / 2 + 1) hi⟩
        intro hmem
        have := bsearch_trace_mem pred fuel ((lo + hi) / 2 + 1) hi _ hmem
        omega
    · rw [if_neg h]
      exact List.nodup_nil

theorem bsearch_trace_length (pred : Nat → Bool) :
    ∀ fuel lo hi, hi - lo ≤ fuel →
      (bsearch pred fuel lo hi).2.length ≤ bitlen (hi - lo) := by
  intro fuel
  induction fuel with
  | zero =>
    intro lo hi _
    exact Nat.zero_le _
  | succ fuel ih =>
    intro lo hi hf
    simp only [bsearch]
    by_cases h : lo < hi
    · rw [if_pos h]
      have hone : 1 ≤ hi - lo := by omega
      by_cases hp : pred ((lo + hi) / 2) = true
      · rw [if_pos hp]
        have hlen := ih lo ((lo + hi) / 2) (by omega)
        have heq : (lo + hi) / 2 - lo = (hi - lo) / 2 := by omega
        calc ((lo + hi) / 2 :: (bsearch pred fuel lo ((lo + hi) / 2)).2).length
            = (bsearch pred fuel lo ((lo + hi) / 2)).2.length + 1 := by
              simp [List.length_cons]
          _ ≤ bitlen ((lo + hi) / 2 - lo) + 1 := by omega
          _ = bitlen ((hi - lo) / 2) + 1 := by rw [heq]
          _ ≤ bitlen (hi - lo) := bitlen_half_succ hone
      · rw [if_neg hp]
        have hlen := ih ((lo + hi) / 2 + 1) hi (by omega)
        have hle : hi - ((lo + hi) / 2 + 1) ≤ (hi - lo) / 2 := by omega
        calc ((lo + hi) / 2 :: (bsearch pred fuel ((lo + hi) / 2 + 1) hi).2).length
            = (bsearch pred fuel ((lo + hi) / 2 + 1) hi).2.length + 1 := by
              simp [List.length_cons]
          _ ≤ bitlen (hi - ((lo + hi) / 2 + 1)) + 1 := by omega
          _ ≤ bitlen ((hi - lo) / 2) + 1 := by
              have := bitlen_mono hle
              omega
          _ ≤ bitlen (hi - lo) := bitlen_half_succ hone
    · rw [if_neg h]
      exact Nat.zero_le _

/-! ## Helper lemmas: snapshot lookup and diff categories -/

theorem lookup_eq_some_mem {s : Snapshot} {n : String} {v : Version}
    (h : lookupVersion s n = some v) : (n, v) ∈ s := by
  unfold lookupVersion at h
  rcases Option.map_eq_some'.mp h with ⟨p, hfind, hv⟩
  have hmem := List.mem_of_find?_eq_some hfind
  have hbeq := List.find?_some hfind
  have hn : p.1 = n := by simpa using hbeq
  have : p = (n, v) := Prod.ext hn hv
  rw [← this]
  exact hmem

theorem mem_lookup_eq_some {s : Snapshot} (hnodup : (s.map Prod.fst).Nodup) :
    ∀ {n : String} {v : Version}, (n, v) ∈ s → lookupVersion s n = some v := by
  induction s with
  | nil =>
    intro n v h
    exact absurd h (List.not_mem_nil _)
  | cons a t ih =>
    intro n v h
    have hnodup_t : (t.map Prod.fst).Nodup := (List.nodup_cons.mp hnodup).2
    have hhead : a.1 ∉ t.map Prod.fst := (List.nodup_cons.mp hnodup).1
    rcases List.mem_cons.mp h with rfl | ht
    · unfold lookupVersion
      simp [List.find?]
    · by_cases hbeq : a.1 == n
      · exfalso
        have han : a.1 = n := by simpa using hbeq
        apply hhead
        rw [han]
        exact List.mem_map.mpr ⟨(n, v), ht, rfl⟩
      · unfold lookupVersion
        rw [List.find?]
        simp only [hbeq]
        exact ih hnodup_t ht

theorem lookup_eq_none {s : Snapshot} {n : String} :
    lookupVersion s n = none ↔ ∀ p ∈ s, p.1 ≠ n := by
  unfold lookupVersion
  rw [Option.map_eq_none', List.find?_eq_none]
  constructor
  · intro h p hp
    have := h p hp
    simpa using this
  · intro h p hp
    simpa using h p hp

theorem mem_map_fst_filter {p : String × Version → Bool} {l : List (String × Version)}
    {n : String} :
    n ∈ (l.filter p).map Prod.fst ↔ ∃ v, (n, v) ∈ l ∧ p (n, v) = true := by
  rw [List.mem_map]
  constructor
  · rintro ⟨⟨a, b⟩, hmem, rfl⟩
    have := List.mem_filter.mp hmem
    exact ⟨b, this.1, this.2⟩
  · rintro ⟨v, hmem, hp⟩
    exact ⟨(n, v), List.mem_filter.mpr ⟨hmem, hp⟩, rfl⟩

theorem nodup_map_fst_filter {p : String × Version → Bool} {l : List (String × Version)}
    (h : (l.map Prod.fst).Nodup) : ((l.filter p).map Prod.fst).Nodup :=
  ((List.filter_sublist l).map Prod.fst).nodup h

/-! ## Claim theorems -/

/-- C1: the spec claims the predicate built by to_script_runner returns True
if and only if the process exit status is non-zero.  The source instead
returns the value of the Python expression returncode == 0: on a process that
exits with the non-zero status 1 the predicate yields false, and on a process
that exits with status 0 it yields true — the exact inversion of the claim and
of the docstring of to_script_runner itself. -/
theorem C1_to_script_runner_inverted :
    to_script_runner (fun _ : Unit => (1 : Int)) () = false ∧
    to_script_runner (fun _ : Unit => (0 : Int)) () = true :=
  ⟨rfl, rfl⟩

/-- C3: for every sequence of exactly 2 snapshots, bisect returns the pair
(0, 1) unconditionally and never invokes the has_issue predicate: the ghost
evaluation trace is empty. -/
theorem C3_bisect_two_contexts {α δ : Type} [Inhabited α] (has_issue : α → Bool)
    (diffFn : α → α → δ) (a b : α) :
    bisect has_issue diffFn [a, b] =
      Except.ok ({ last_good := 0, first_bad := 1, diff := diffFn a b }, ([] : List Nat)) :=
  rfl

/-- C9: for snapshot sequences of length 0 or 1, bisect raises the
not-yet-supported error; a result is only returned for length at least 2. -/
theorem C9_bisect_short_raises {α δ : Type} [Inhabited α] (has_issue : α → Bool)
    (diffFn : α → α → δ) (a : α) :
    bisect has_issue diffFn ([] : List α) = Except.error RunnerError.notImplemented ∧
    bisect has_issue diffFn [a] = Except.error RunnerError.notImplemented :=
  ⟨rfl, rfl⟩

/-- C5: given one valid resolvable request and one path to a nonexistent
snapshot file, in either order, to_contexts raises BadRequest whose message
names exactly the nonexistent file and not the valid request. -/
theorem C5_missing_named_alone {α : Type} (env : Env α) (good bad : String)
    (hgm : offendsMissing env good = false)
    (hgr : offendsResolve env good = false)
    (hbm : offendsMissing env bad = true) :
    to_contexts env [good, bad] = Except.error (BadRequest.missingFiles [bad]) ∧
    to_contexts env [bad, good] = Except.error (BadRequest.missingFiles [bad]) ∧
    good ∉ [bad] := by
  have haddnil : addSet ([] : List String) bad = [bad] := by simp [addSet]
  refine ⟨?_, ?_, ?_⟩
  · have h1 : to_contexts_loop env [good, bad] ⟨[], [], [], []⟩ =
        to_contexts_step env (to_contexts_step env ⟨[], [], [], []⟩ good) bad := rfl
    have hs1 := step_process_ok env ⟨[], [], [], []⟩ good rfl hgm hgr
    have hm2 : (to_contexts_step env (to_contexts_step env ⟨[], [], [], []⟩ good) bad).missing
        = [bad] := by
      rw [step_missing, hbm, if_pos rfl, hs1.2.1, haddnil]
    unfold to_contexts
    rw [h1, hm2]
    simp
  · have h1 : to_contexts_loop env [bad, good] ⟨[], [], [], []⟩ =
        to_contexts_step env (to_contexts_step env ⟨[], [], [], []⟩ bad) good := rfl
    have hs1 := step_skip_of_offends env ⟨[], [], [], []⟩ bad hbm
    have hm2 : (to_contexts_step env (to_contexts_step env ⟨[], [], [], []⟩ bad) good).missing
        = [bad] := by
      rw [step_missing, hgm]
      simp only [Bool.false_eq_true, if_false]
      rw [hs1]
      show addSet ([] : List String) bad = [bad]
      exact haddnil
    unfold to_contexts
    rw [h1, hm2]
    simp
  · intro hmem
    rw [List.mem_singleton] at hmem
    subst hmem
    rw [hbm] at hgm
    simp at hgm

/-- C5 witness: a concrete valid request and a concrete missing absolute
context file. -/
theorem C5_witness :
    to_contexts envAllResolve [("g"), ("/m.rxt")] =
      Except.error (BadRequest.missingFiles [("/m.rxt")]) ∧
    to_contexts envAllResolve [("/m.rxt"), ("g")] =
      Except.error (BadRequest.missingFiles [("/m.rxt")]) ∧
    ("g") ∉ [("/m.rxt")] :=
  C5_missing_named_alone envAllResolve ("g") ("/m.rxt") rfl rfl rfl

/-- C8: for a context-file request, the load branch of to_contexts fails by
raising BadRequest both when the file is an absolute path missing on disk and
when loading yields an unsuccessful context, which is how a missing relative
or malformed file surfaces through the success flag of the loaded snapshot. -/
theorem C8_load_failure_raises {α : Type} (env : Env α) (r : String)
    (hrxt : _is_relative_context r = true) :
    (offendsMissing env r = true →
      to_contexts env [r] = Except.error (BadRequest.missingFiles [r])) ∧
    (offendsMissing env r = false → env.success (env.load (env.normalize r)) = false →
      to_contexts env [r] = Except.error (BadRequest.unresolvable [env.normalize r])) := by
  constructor
  · intro hm
    have h1 : to_contexts_loop env [r] ⟨[], [], [], []⟩ =
        to_contexts_step env ⟨[], [], [], []⟩ r := rfl
    have hs := step_skip_of_offends env ⟨[], [], [], []⟩ r hm
    have hm2 : (to_contexts_step env ⟨[], [], [], []⟩ r).missing = [r] := by
      rw [hs]
      show addSet ([] : List String) r = [r]
      simp [addSet]
    unfold to_contexts
    rw [h1, hm2]
    simp
  · intro hm hload
    have hres : offendsResolve env r = true := by
      unfold offendsResolve
      rw [hrxt, if_pos rfl, hload]
      rfl
    have h1 : to_contexts_loop env [r] ⟨[], [], [], []⟩ =
        to_contexts_step env ⟨[], [], [], []⟩ r := rfl
    have hs := step_process_fail env ⟨[], [], [], []⟩ r rfl hm hres
    have hfn : failedName env r = env.normalize r := by
      unfold failedName
      rw [hrxt, if_pos rfl]
    unfold to_contexts
    rw [h1, hs, hfn]
    simp [addSet]

/-- C8 witness: loading the relative context file x.rxt in an environment
where every load yields an unsuccessful context raises BadRequest. -/
theorem C8_witness :
    to_contexts envLoadFails [("x.rxt")] =
      Except.error (BadRequest.unresolvable [("x.rxt")]) :=
  (C8_load_failure_raises envLoadFails ("x.rxt") rfl).2 rfl rfl

/-- C10: once any request in the first block is an absolute path missing on
disk, appending further requests changes nothing about what is processed: no
later request is ever loaded or resolved, the call raises BadRequest naming
only missing files, and resolution failures positioned after the missing file
are never detected or reported. -/
theorem C10_skip_after_missing {α : Type} (env : Env α) (xs ys : List String)
    (h : ∃ r ∈ xs, offendsMissing env r = true) :
    processedOf env (xs ++ ys) = processedOf env xs ∧
    (∀ y, y ∈ processedOf env (xs ++ ys) → y ∈ xs) ∧
    ∃ m, to_contexts env (xs ++ ys) = Except.error (BadRequest.missingFiles m) ∧
      ∀ x, x ∈ m → offendsMissing env x = true := by
  obtain ⟨r0, hr0mem, hr0⟩ := h
  have hmiss_ne : (to_contexts_loop env xs ⟨[], [], [], []⟩).missing ≠ [] := by
    rw [loop_missing]
    exact List.ne_nil_of_mem
      (mem_addAll.mpr (Or.inr (List.mem_filter.mpr ⟨hr0mem, hr0⟩)))
  have happ : to_contexts_loop env (xs ++ ys) ⟨[], [], [], []⟩ =
      to_contexts_loop env ys (to_contexts_loop env xs ⟨[], [], [], []⟩) :=
    loop_append env xs ys ⟨[], [], [], []⟩
  have hskip := loop_skip env ys (to_contexts_loop env xs ⟨[], [], [], []⟩) hmiss_ne
  have hproc : processedOf env (xs ++ ys) = processedOf env xs := by
    unfold processedOf
    rw [happ]
    exact hskip.2.2
  refine ⟨hproc, ?_, ?_⟩
  · intro y hy
    rw [hproc] at hy
    rcases loop_processed_sub env xs ⟨[], [], [], []⟩ y hy with h0 | h1
    · exact absurd h0 (List.not_mem_nil y)
    · exact h1
  · have hmiss_app_ne : (to_contexts_loop env (xs ++ ys) ⟨[], [], [], []⟩).missing ≠ [] := by
      rw [loop_missing]
      refine List.ne_nil_of_mem
        (mem_addAll.mpr (Or.inr (List.mem_filter.mpr ⟨?_, hr0⟩)))
      exact List.mem_append.mpr (Or.inl hr0mem)
    refine ⟨(to_contexts_loop env (xs ++ ys) ⟨[], [], [], []⟩).missing, ?_, ?_⟩
    · unfold to_contexts
      simp [List.isEmpty_eq_false.mpr hmiss_app_ne]
    · intro x hx
      rw [loop_missing] at hx
      rcases mem_addAll.mp hx with h0 | h1
      · exact absurd h0 (List.not_mem_nil x)
      · exact (List.mem_filter.mp h1).2

/-- C10 witness: a missing absolute context file followed by a request whose
resolve would fail; the later request is never processed and the error names
only the missing file. -/
theorem C10_witness :
    processedOf envResolveFails ([("/m.rxt")] ++ [("b")]) =
      processedOf envResolveFails [("/m.rxt")] ∧
    (∀ y, y ∈ processedOf envResolveFails ([("/m.rxt")] ++ [("b")]) → y ∈ [("/m.rxt")]) ∧
    ∃ m, to_contexts envResolveFails ([("/m.rxt")] ++ [("b")]) =
        Except.error (BadRequest.missingFiles m) ∧
      ∀ x, x ∈ m → offendsMissing envResolveFails x = true :=
  C10_skip_after_missing envResolveFails [("/m.rxt")] [("b")]
    ⟨("/m.rxt"), List.mem_singleton.mpr rfl, rfl⟩

/-- C4 counterexample: the claim says that whenever any item is missing on
disk or any item fails to resolve, the raised BadRequest lists every offending
item.  Concretely, with the request a, which fails to resolve, followed by the
missing absolute file /m.rxt, the raised BadRequest names only /m.rxt and
omits the offending request a. -/
theorem C4_counterexample :
    to_contexts envResolveFails [("a"), ("/m.rxt")] =
      Except.error (BadRequest.missingFiles [("/m.rxt")]) ∧
    offendsResolve envResolveFails ("a") = true ∧
    ("a") ∉ (BadRequest.missingFiles [("/m.rxt")]).names := by
  refine ⟨rfl, rfl, ?_⟩
  intro hmem
  simp [BadRequest.names] at hmem

/-- C4 amended: to_contexts fails atomically with BadRequest whenever any
item is missing on disk or fails to resolve, but the message aggregates only
one kind of offender: when any absolute item is missing on disk the error
lists all and only the missing items, and only when no item is missing does
the error list the items that failed to resolve (under their recorded,
possibly normalized, names). -/
theorem C4_error_aggregation {α : Type} (env : Env α) (requests : List String)
    (h : ∃ r ∈ requests, offendsMissing env r = true ∨ offendsResolve env r = true) :
    ∃ e, to_contexts env requests = Except.error e ∧
      ((∃ r ∈ requests, offendsMissing env r = true) →
        (∀ r ∈ requests, offendsMissing env r = true → r ∈ e.names) ∧
        (∀ x ∈ e.names, offendsMissing env x = true)) ∧
      ((∀ r ∈ requests, offendsMissing env r = false) →
        ∀ r ∈ requests, offendsResolve env r = true → failedName env r ∈ e.names) := by
  by_cases hm : ∃ r ∈ requests, offendsMissing env r = true
  · obtain ⟨r0, hr0m, hr0⟩ := hm
    have hMne : (to_contexts_loop env requests ⟨[], [], [], []⟩).missing ≠ [] := by
      rw [loop_missing]
      exact List.ne_nil_of_mem
        (mem_addAll.mpr (Or.inr (List.mem_filter.mpr ⟨hr0m, hr0⟩)))
    refine ⟨BadRequest.missingFiles (to_contexts_loop env requests ⟨[], [], [], []⟩).missing,
      ?_, ?_, ?_⟩
    · unfold to_contexts
      simp [List.isEmpty_eq_false.mpr hMne]
    · intro _
      constructor
      · intro r hrm hroff
        show r ∈ (to_contexts_loop env requests ⟨[], [], [], []⟩).missing
        rw [loop_missing]
        exact mem_addAll.mpr (Or.inr (List.mem_filter.mpr ⟨hrm, hroff⟩))
      · intro x hx
        rw [show (BadRequest.missingFiles
            (to_contexts_loop env requests ⟨[], [], [], []⟩).missing).names =
            (to_contexts_loop env requests ⟨[], [], [], []⟩).missing from rfl,
          loop_missing] at hx
        rcases mem_addAll.mp hx with h0 | h1
        · exact absurd h0 (List.not_mem_nil x)
        · exact (List.mem_filter.mp h1).2
    · intro hall
      rw [hall r0 hr0m] at hr0
      exact absurd hr0 (by simp)
  · have hall : ∀ r ∈ requests, offendsMissing env r = false := by
      intro r hr
      cases hor : offendsMissing env r
      · rfl
      · exact absurd ⟨r, hr, hor⟩ hm
    obtain ⟨r0, hr0m, hr0or⟩ := h
    have hr0res : offendsResolve env r0 = true := by
      rcases hr0or with h1 | h2
      · rw [hall r0 hr0m] at h1
        exact absurd h1 (by simp)
      · exact h2
    have hMnil : (to_contexts_loop env requests ⟨[], [], [], []⟩).missing = [] := by
      rw [loop_missing]
      have hfil : requests.filter (fun r => offendsMissing env r) = [] :=
        List.filter_eq_nil_iff.mpr (fun a ha => by simp [hall a ha])
      rw [hfil]
      rfl
    have hF : failedName env r0 ∈ (to_contexts_loop env requests ⟨[], [], [], []⟩).failed :=
      loop_failed_mem env requests ⟨[], [], [], []⟩ rfl hall r0 hr0m hr0res
    have hFne : (to_contexts_loop env requests ⟨[], [], [], []⟩).failed ≠ [] :=
      List.ne_nil_of_mem hF
    refine ⟨BadRequest.unresolvable (to_contexts_loop env requests ⟨[], [], [], []⟩).failed,
      ?_, ?_, ?_⟩
    · unfold to_contexts
      simp [hMnil, List.isEmpty_eq_false.mpr hFne]
    · intro hex
      obtain ⟨r1, hr1, hoff⟩ := hex
      rw [hall r1 hr1] at hoff
      exact absurd hoff (by simp)
    · intro _ r hr hres
      exact loop_failed_mem env requests ⟨[], [], [], []⟩ rfl hall r hr hres

/-- C4 witness: the amended aggregation behavior at a concrete input with one
unresolvable request and one missing absolute file. -/
theorem C4_witness :
    ∃ e, to_contexts envResolveFails [("a"), ("/m.rxt")] = Except.error e ∧
      ((∃ r ∈ [("a"), ("/m.rxt")], offendsMissing envResolveFails r = true) →
        (∀ r ∈ [("a"), ("/m.rxt")], offendsMissing envResolveFails r = true → r ∈ e.names) ∧
        (∀ x ∈ e.names, offendsMissing envResolveFails x = true)) ∧
      ((∀ r ∈ [("a"), ("/m.rxt")], offendsMissing envResolveFails r = false) →
        ∀ r ∈ [("a"), ("/m.rxt")], offendsResolve envResolveFails r = true →
          failedName envResolveFails r ∈ e.names) :=
  C4_error_aggregation envResolveFails [("a"), ("/m.rxt")]
    ⟨("a"), List.mem_cons_self _ _, Or.inr rfl⟩

/-- C2: for every snapshot sequence of length at least 3 whose has_issue
verdicts are monotonic — false at index 0, false strictly before the flip
index, true from the flip index to the end — bisect returns the pair of the
flip index minus one and the flip index. -/
theorem C2_bisect_returns_flip {α δ : Type} [Inhabited α] (has_issue : α → Bool)
    (diffFn : α → α → δ) (contexts : List α) (i0 : Nat)
    (hn : 3 ≤ contexts.length)
    (hv0 : has_issue (contexts.getD 0 default) = false)
    (hi0n : i0 < contexts.length)
    (hbefore : ∀ j, j < i0 → has_issue (contexts.getD j default) = false)
    (hafter : ∀ j, i0 ≤ j → j < contexts.length → has_issue (contexts.getD j default) = true) :
    (bisect has_issue diffFn contexts).map
      (fun p => (p.1.last_good, p.1.first_bad)) = Except.ok (i0 - 1, i0) := by
  have hi0pos : 1 ≤ i0 := by
    by_contra hc
    have hz : i0 = 0 := by omega
    subst hz
    rw [hafter 0 (Nat.le_refl 0) (by omega)] at hv0
    exact absurd hv0 (by simp)
  have hfuel : (contexts.length - 1) - 1 ≤ contexts.length := by omega
  have hbnd := bsearch_bounds (fun index => has_issue (contexts.getD index default))
    contexts.length 1 (contexts.length - 1) hfuel (by omega)
  have hmono : ∀ i j, 1 ≤ i → i ≤ j → j < contexts.length - 1 →
      has_issue (contexts.getD i default) = true →
      has_issue (contexts.getD j default) = true := by
    intro i j h1 hij hj hpi
    have hii0 : i0 ≤ i := by
      by_contra hc
      rw [hbefore i (by omega)] at hpi
      exact absurd hpi (by simp)
    exact hafter j (by omega) (by omega)
  have hcorr := bsearch_correct (fun index => has_issue (contexts.getD index default))
    contexts.length 1 (contexts.length - 1) hfuel hmono
  have hvr : has_issue (contexts.getD
      ((bsearch (fun index => has_issue (contexts.getD index default))
        contexts.length 1 (contexts.length - 1)).1) default) = true := by
    by_cases hlt : (bsearch (fun index => has_issue (contexts.getD index default))
        contexts.length 1 (contexts.length - 1)).1 < contexts.length - 1
    · exact hcorr.2 hlt
    · have hreq : (bsearch (fun index => has_issue (contexts.getD index default))
          contexts.length 1 (contexts.length - 1)).1 = contexts.length - 1 := by omega
      rw [hreq]
      exact hafter (contexts.length - 1) (by omega) (by omega)
  have hge : i0 ≤ (bsearch (fun index => has_issue (contexts.getD index default))
      contexts.length 1 (contexts.length - 1)).1 := by
    by_contra hc
    rw [hbefore _ (by omega)] at hvr
    exact absurd hvr (by simp)
  have hle : (bsearch (fun index => has_issue (contexts.getD index default))
      contexts.length 1 (contexts.length - 1)).1 ≤ i0 := by
    by_contra hc
    have hfalse : has_issue (contexts.getD i0 default) = false :=
      hcorr.1 i0 hi0pos (by omega)
    rw [hafter i0 (Nat.le_refl i0) hi0n] at hfalse
    exact absurd hfalse (by simp)
  have hreq : (bsearch (fun index => has_issue (contexts.getD index default))
      contexts.length 1 (contexts.length - 1)).1 = i0 := by omega
  have hgt : contexts.length > 2 := by omega
  unfold bisect _reduce_to_two_contexts bisect_right
  rw [if_pos hgt, hreq]
  rfl

/-- C2 witness: three snapshots with verdicts false, false, true; the flip
index is 2 and bisect returns the pair of 1 and 2. -/
theorem C2_witness :
    (bisect (fun x => x == 1) (fun a b : Nat => (a, b)) ([0, 0, 1] : List Nat)).map
      (fun p => (p.1.last_good, p.1.first_bad)) = Except.ok (1, 2) :=
  C2_bisect_returns_flip (fun x => x == 1) (fun a b : Nat => (a, b)) [0, 0, 1] 2
    (by decide) rfl (by decide)
    (by
      intro j hj
      interval_cases j <;> rfl)
    (by
      intro j h1 h2
      have h3 : j < 3 := h2
      have hj : j = 2 := by omega
      subst hj
      rfl)

/-- C6: for every snapshot sequence of length n at least 3, the bisection
search evaluates has_issue at most the ceiling of log2 n times and never
evaluates the same index twice: the ghost evaluation trace has no duplicates
and its length is bounded by the ceiling base-2 logarithm of n. -/
theorem C6_bisect_call_bound {α δ : Type} [Inhabited α] (has_issue : α → Bool)
    (diffFn : α → α → δ) (contexts : List α) (hn : 3 ≤ contexts.length) :
    ∀ summary trace, bisect has_issue diffFn contexts = Except.ok (summary, trace) →
      trace.Nodup ∧ trace.length ≤ Nat.clog 2 contexts.length := by
  intro summary trace heq
  have hgt : contexts.length > 2 := by omega
  unfold bisect _reduce_to_two_contexts bisect_right at heq
  rw [if_pos hgt] at heq
  have htr : trace = (bsearch (fun index => has_issue (contexts.getD index default))
      contexts.length 1 (contexts.length - 1)).2 := by
    have hpair := Except.ok.inj heq
    exact (congrArg Prod.snd hpair).symm
  rw [htr]
  constructor
  · exact bsearch_trace_nodup (fun index => has_issue (contexts.getD index default))
      contexts.length 1 (contexts.length - 1)
  · have h1 := bsearch_trace_length (fun index => has_issue (contexts.getD index default))
      contexts.length 1 (contexts.length - 1) (by omega)
    have h2 : bitlen ((contexts.length - 1) - 1) ≤ Nat.clog 2 contexts.length := by
      have heq2 : (contexts.length - 1) - 1 = contexts.length - 2 := by omega
      rw [heq2]
      exact bitlen_le_clog hn
    omega

/-- C6 witness: on three snapshots the search evaluates exactly the middle
index once, within the ceiling of log2 of 3. -/
theorem C6_witness :
    ([1] : List Nat).Nodup ∧
    ([1] : List Nat).length ≤ Nat.clog 2 ([0, 0, 1] : List Nat).length :=
  C6_bisect_call_bound (fun x => x == 1) (fun a b : Nat => (a, b)) [0, 0, 1] (by decide)
    { last_good := 1, first_bad := 2, diff := (0, 1) } [1] (by rfl)

/-- C7: the diff of two successfully resolved snapshots partitions package
changes.  A name present in both snapshots with the same version appears in no
category; a name present in exactly one snapshot appears in added_packages or
removed_packages only, respectively; a name present in both with different
versions appears in exactly one of newer_packages or older_packages as decided
by the version ordering, and in neither added_packages nor removed_packages;
and no category lists the same package name twice. -/
theorem C7_diff_partition (before after : Snapshot)
    (hb : (before.map Prod.fst).Nodup) (ha : (after.map Prod.fst).Nodup) (name : String) :
    (∀ v, lookupVersion before name = some v → lookupVersion after name = some v →
      name ∉ (get_resolve_diff before after).added_packages.map Prod.fst ∧
      name ∉ (get_resolve_diff before after).removed_packages.map Prod.fst ∧
      name ∉ (get_resolve_diff before after).newer_packages.map Prod.fst ∧
      name ∉ (get_resolve_diff before after).older_packages.map Prod.fst) ∧
    (lookupVersion before name = none → ∀ w, lookupVersion after name = some w →
      name ∈ (get_resolve_diff before after).added_packages.map Prod.fst ∧
      name ∉ (get_resolve_diff before after).removed_packages.map Prod.fst ∧
      name ∉ (get_resolve_diff before after).newer_packages.map Prod.fst ∧
      name ∉ (get_resolve_diff before after).older_packages.map Prod.fst) ∧
    (∀ v, lookupVersion before name = some v → lookupVersion after name = none →
      name ∈ (get_resolve_diff before after).removed_packages.map Prod.fst ∧
      name ∉ (get_resolve_diff before after).added_packages.map Prod.fst ∧
      name ∉ (get_resolve_diff before after).newer_packages.map Prod.fst ∧
      name ∉ (get_resolve_diff before after).older_packages.map Prod.fst) ∧
    (∀ v w, lookupVersion before name = some v → lookupVersion after name = some w →
      v ≠ w →
      name ∉ (get_resolve_diff before after).added_packages.map Prod.fst ∧
      name ∉ (get_resolve_diff before after).removed_packages.map Prod.fst ∧
      (versionLt v w = true →
        name ∈ (get_resolve_diff before after).newer_packages.map Prod.fst ∧
        name ∉ (get_resolve_diff before after).older_packages.map Prod.fst) ∧
      (versionLt v w = false →
        name ∈ (get_resolve_diff before after).older_packages.map Prod.fst ∧
        name ∉ (get_resolve_diff before after).newer_packages.map Prod.fst)) ∧
    (((get_resolve_diff before after).added_packages.map Prod.fst).Nodup ∧
      ((get_resolve_diff before after).removed_packages.map Prod.fst).Nodup ∧
      ((get_resolve_diff before after).newer_packages.map Prod.fst).Nodup ∧
      ((get_resolve_diff before after).older_packages.map Prod.fst).Nodup) := by
  simp only [get_resolve_diff]
  refine ⟨?_, ?_, ?_, ?_, ?_, ?_, ?_, ?_⟩
  · -- unchanged name: in no category
    intro v hbv hav
    refine ⟨?_, ?_, ?_, ?_⟩
    · intro hmem
      obtain ⟨w, _, hp⟩ := mem_map_fst_filter.mp hmem
      simp only [hbv] at hp
      simp at hp
    · intro hmem
      obtain ⟨v', _, hp⟩ := mem_map_fst_filter.mp hmem
      simp only [hav] at hp
      simp at hp
    · intro hmem
      obtain ⟨w, hw, hp⟩ := mem_map_fst_filter.mp hmem
      have hweq : w = v := by
        have := mem_lookup_eq_some ha hw
        rw [hav] at this
        exact (Option.some.inj this).symm
      subst hweq
      simp only [hbv] at hp
      rw [Bool.and_eq_true] at hp
      exact absurd rfl (bne_iff_ne.mp hp.1)
    · intro hmem
      obtain ⟨w, hw, hp⟩ := mem_map_fst_filter.mp hmem
      have hweq : w = v := by
        have := mem_lookup_eq_some ha hw
        rw [hav] at this
        exact (Option.some.inj this).symm
      subst hweq
      simp only [hbv] at hp
      rw [Bool.and_eq_true] at hp
      exact absurd rfl (bne_iff_ne.mp hp.1)
  · -- present only in after: added only
    intro hbn w haw
    refine ⟨?_, ?_, ?_, ?_⟩
    · exact mem_map_fst_filter.mpr ⟨w, lookup_eq_some_mem haw, by simp [hbn]⟩
    · intro hmem
      obtain ⟨v', hv', _⟩ := mem_map_fst_filter.mp hmem
      exact absurd rfl (lookup_eq_none.mp hbn (name, v') hv')
    · intro hmem
      obtain ⟨w', _, hp⟩ := mem_map_fst_filter.mp hmem
      simp only [hbn] at hp
      exact absurd hp (by simp)
    · intro hmem
      obtain ⟨w', _, hp⟩ := mem_map_fst_filter.mp hmem
      simp only [hbn] at hp
      exact absurd hp (by simp)
  · -- present only in before: removed only
    intro v hbv han
    refine ⟨?_, ?_, ?_, ?_⟩
    · exact mem_map_fst_filter.mpr ⟨v, lookup_eq_some_mem hbv, by simp [han]⟩
    · intro hmem
      obtain ⟨w', hw', _⟩ := mem_map_fst_filter.mp hmem
      exact absurd rfl (lookup_eq_none.mp han (name, w') hw')
    · intro hmem
      obtain ⟨w', hw', _⟩ := mem_map_fst_filter.mp hmem
      exact absurd rfl (lookup_eq_none.mp han (name, w') hw')
    · intro hmem
      obtain ⟨w', hw', _⟩ := mem_map_fst_filter.mp hmem
      exact absurd rfl (lookup_eq_none.mp han (name, w') hw')
  · -- version changed: exactly one of newer and older
    intro v w hbv haw hne
    have hmemw : (name, w) ∈ after := lookup_eq_some_mem haw
    refine ⟨?_, ?_, ?_, ?_⟩
    · intro hmem
      obtain ⟨w', _, hp⟩ := mem_map_fst_filter.mp hmem
      simp only [hbv] at hp
      simp at hp
    · intro hmem
      obtain ⟨v', hv', hp⟩ := mem_map_fst_filter.mp hmem
      simp only [haw] at hp
      simp at hp
    · intro hvlt
      constructor
      · refine mem_map_fst_filter.mpr ⟨w, hmemw, ?_⟩
        simp only [hbv]
        rw [Bool.and_eq_true]
        exact ⟨bne_iff_ne.mpr hne, hvlt⟩
      · intro hmem
        obtain ⟨w', hw', hp⟩ := mem_map_fst_filter.mp hmem
        have hweq : w' = w := by
          have := mem_lookup_eq_some ha hw'
          rw [haw] at this
          exact (Option.some.inj this).symm
        subst hweq
        simp only [hbv] at hp
        rw [Bool.and_eq_true] at hp
        rw [hvlt] at hp
        simp at hp
    · intro hvlt
      constructor
      · refine mem_map_fst_filter.mpr ⟨w, hmemw, ?_⟩
        simp only [hbv]
        rw [Bool.and_eq_true]
        refine ⟨bne_iff_ne.mpr hne, ?_⟩
        rw [hvlt]
        rfl
      · intro hmem
        obtain ⟨w', hw', hp⟩ := mem_map_fst_filter.mp hmem
        have hweq : w' = w := by
          have := mem_lookup_eq_some ha hw'
          rw [haw] at this
          exact (Option.some.inj this).symm
        subst hweq
        simp only [hbv] at hp
        rw [Bool.and_eq_true] at hp
        rw [hvlt] at hp
        simp at hp
  · exact nodup_map_fst_filter ha
  · exact nodup_map_fst_filter hb
  · exact nodup_map_fst_filter ha
  · exact nodup_map_fst_filter ha

/-- C7 witness: the package a moves from version 1.0 to version 1.1; it lands
in newer_packages and in no other category. -/
theorem C7_witness :
    ("a") ∈ ((get_resolve_diff [(("a"), [1, 0])] [(("a"), [1, 1])]).newer_packages.map
      Prod.fst) ∧
    ("a") ∉ ((get_resolve_diff [(("a"), [1, 0])] [(("a"), [1, 1])]).older_packages.map
      Prod.fst) := by
  have h := C7_diff_partition [(("a"), [1, 0])] [(("a"), [1, 1])] (by simp) (by simp) ("a")
  have h4 := h.2.2.2.1 [1, 0] [1, 1] rfl rfl (by decide)
  exact h4.2.2.1 rfl

end RezBisect
